import Mathlib

/-!
A shallow embedding of `child2.c` (command line interpreter)

The C program reads lines, splits each line on `;` into statements, splits each
statement on spaces into an argument vector and runs it with `fork`/`execvp`/`waitpid`.

Modelling conventions.

* A C string is the list of its characters before the terminating NUL.
* `strtok` is the C library function; it is modelled after ISO C 7.24.5.8 as a function
  from the scan position to the token found and the saved position.
* An out-of-bounds store, a NULL dereference, a `waitpid` that never returns and
  `exit(EXIT_FAILURE)` end a run; they are the constructors of `Stuck`.
* The operating system is an oracle `os : Nat → ForkReply` giving, for the n-th call of
  `fork`, whether it fails and what `waitpid` reports for the child.
* Assumed of the environment: `malloc` and `getline` do not run out of memory, and `waitpid`
  on the child just made does not fail.
-/

namespace Child2

/-- The characters of a C string before its terminating NUL. -/
abbrev CString := List Char

/-- Ways in which a run of the program does not return normally. -/
inductive Stuck where
  /-- a store to `tokens[index]` with `index` outside the allocated array -/
  | oob (index : Nat)
  /-- a call `strcmp(args[0], ...)` with `args[0] == NULL` -/
  | nullDeref
  /-- no status that ends the wait loop is ever reported by `waitpid` -/
  | blocks
  /-- the process called `exit(EXIT_FAILURE)` -/
  | exitFailure
  /-- the loop budget of the model ran out (shown never to happen) -/
  | fuel
  deriving DecidableEq, Repr

deriving instance DecidableEq for Except

/-- Membership of a character in the delimiter string handed to `strtok`. -/
def isDelim (delim : CString) (c : Char) : Bool := delim.contains c

/-- One call of the C library's `strtok` scanning from `s` (the string on the first call, the
saved position on a call with `NULL`): skip leading delimiters (`strspn`); at the end of the
string return `NULL`; otherwise the token runs up to the next delimiter (`strcspn`), which is
overwritten by NUL, and the saved position is just behind it (or the end of the string). -/
def strtok (s delim : CString) : Option (CString × CString) :=
  match s.dropWhile (isDelim delim) with
  | [] => none
  | c :: cs =>
    let token := (c :: cs).takeWhile (fun x => !isDelim delim x)
    match (c :: cs).dropWhile (fun x => !isDelim delim x) with
    | [] => some (token, [])
    | _ :: save => some (token, save)

/-- The number of slots of the array that `parseLine` allocates. -/
def MAX_SIZE : Nat := 1024

/-- The `while (token != NULL)` loop of `parseLine` and the final store of `NULL`:
`token` is the result of the last `strtok` call (with the saved position), `tokens` the
entries stored so far and `position` the next index. Every store checks the index against
the `MAX_SIZE` slots of the array. -/
def parseLoop (delim : CString) :
    Nat → Option (CString × CString) → List CString → Nat → Except Stuck (List CString)
  | 0, _, _, _ => .error .fuel
  | _ + 1, none, tokens, position =>
    -- tokens[position] = NULL; return tokens;
    if position < MAX_SIZE then .ok tokens else .error (.oob position)
  | fuel + 1, some (token, save), tokens, position =>
    -- tokens[position] = token; position++; token = strtok(NULL, delim);
    if position < MAX_SIZE then
      parseLoop delim fuel (strtok save delim) (tokens ++ [token]) (position + 1)
    else .error (.oob position)

/-- The function `parseLine(line, delim)`: the NULL-terminated array of tokens it returns, as a
list. The loop runs at most once per character of the line. -/
def parseLine (line delim : CString) : Except Stuck (List CString) :=
  parseLoop delim (line.length + 1) (strtok line delim) [] 0

/-- The tokenizer of the specification: split the text at every delimiter character and keep
the non-empty pieces, which are the maximal delimiter-free runs in their original order. -/
def splitRuns (delim text : CString) : List CString :=
  (text.splitOnP (isDelim delim)).filter (fun t => !t.isEmpty)

/-- The maximal delimiter-free runs of a text, stated without reference to any algorithm:
`MaximalRuns delim text tokens` holds when `text` is made of the `tokens` in this order, each
non-empty and free of delimiters, each starting at the start of the text or just behind a
delimiter and ending at the end of the text or just before a delimiter, with nothing but
delimiters around them. -/
inductive MaximalRuns (delim : CString) : CString → List CString → Prop where
  | nil : MaximalRuns delim [] []
  | skip (d : Char) (text : CString) (tokens : List CString) (hd : d ∈ delim)
      (h : MaximalRuns delim text tokens) : MaximalRuns delim (d :: text) tokens
  | last (t : CString) (hne : t ≠ []) (hfree : ∀ c ∈ t, c ∉ delim) : MaximalRuns delim t [t]
  | token (t : CString) (d : Char) (text : CString) (tokens : List CString) (hne : t ≠ [])
      (hfree : ∀ c ∈ t, c ∉ delim) (hd : d ∈ delim) (h : MaximalRuns delim text tokens) :
      MaximalRuns delim (t ++ d :: text) (t :: tokens)

/-- What `waitpid(pid, &status, WUNTRACED)` can report about a child: it exited with a code,
it was terminated by a signal, or it was stopped by a signal. -/
inductive WaitStatus where
  | exited (code : Nat)
  | signaled (sig : Nat)
  | stopped (sig : Nat)
  deriving DecidableEq, Repr

/-- The macro `WIFEXITED` of `sys/wait.h`. -/
def WIFEXITED : WaitStatus → Bool
  | .exited _ => true
  | _ => false

/-- The macro `WIFSIGNALED` of `sys/wait.h`. -/
def WIFSIGNALED : WaitStatus → Bool
  | .signaled _ => true
  | _ => false

/-- The value of `EXIT_FAILURE` in `stdlib.h`. -/
def EXIT_FAILURE : Nat := 1

/-- The answer of the operating system to one call of `fork`. -/
inductive ForkReply where
  /-- the call of `fork` returns a negative value: no child exists -/
  | failed
  /-- a child exists and its `execvp` returns -1 -/
  | execFailed
  /-- a child exists, its `execvp` succeeds, and the successive calls of `waitpid` on it
  report `statuses` (after the last of them `waitpid` does not return any more) -/
  | running (statuses : List WaitStatus)
  deriving DecidableEq, Repr

/-- The observable actions of the shell and of the children it creates. -/
inductive Event where
  /-- the output of `printf("%s", prompt)` -/
  | prompt
  /-- the output of `printf("Processing Batch File: %s \n", argv[1])` -/
  | banner
  /-- the output of `printf("Line[%d]: %s", i, line)` -/
  | echo (i : Nat) (line : CString)
  /-- the output of `printf("Error! opening file")` -/
  | openError
  /-- the output of `perror("Error Reading Line")` -/
  | readError
  /-- a child made by `fork`, which calls `execvp(file, argv)` -/
  | spawn (file : CString) (argv : List CString)
  /-- the child's `perror("Error executing command")` before its `exit(EXIT_FAILURE)` -/
  | execError
  /-- the output of `perror("Error forking")` -/
  | forkError
  /-- a return of `waitpid` with this status -/
  | wait (status : WaitStatus)
  deriving DecidableEq, Repr

/-- The state threaded through a run: how many times `fork` has been called (the index of the
next reply of the oracle) and the events so far, oldest first. -/
structure Sys where
  forks : Nat
  trace : List Event
  deriving DecidableEq, Repr

/-- Record events at the end of the trace. -/
def Sys.emit (s : Sys) (es : List Event) : Sys := { s with trace := s.trace ++ es }

/-- The string literal `"quit"`. -/
def quitName : CString := ['q', 'u', 'i', 't']

/-- The string literal `"exit"`. -/
def exitName : CString := ['e', 'x', 'i', 't']

/-- The loop `do { wpid = waitpid(pid, &status, WUNTRACED); } while (!WIFEXITED(status) &&
!WIFSIGNALED(status));` run against the statuses that `waitpid` will report: the number of
`waitpid` calls made when the loop ends, or `none` when it never ends. -/
def waitLoop : List WaitStatus → Option Nat
  | [] => none
  | status :: later =>
    if !WIFEXITED status && !WIFSIGNALED status then (waitLoop later).map (· + 1) else some 1

/-- The statuses that `waitpid` reports for the child of a successful `fork`: a child whose
`execvp` fails runs `exit(EXIT_FAILURE)`. -/
def childStatuses : ForkReply → List WaitStatus
  | .failed => []
  | .execFailed => [.exited EXIT_FAILURE]
  | .running statuses => statuses

/-- The events of the child branch (`pid == 0`): the call of `execvp(args[0], args)` and, when
it returns, the error message. -/
def childEvents (file : CString) (args : List CString) : ForkReply → List Event
  | .failed => []
  | .execFailed => [.spawn file args, .execError]
  | .running _ => [.spawn file args]

/-- The function `executeCommand(args)`, with `args` the NULL-terminated argument array as a list.
The result is the returned `int`. -/
def executeCommand (os : Nat → ForkReply) (args : List CString) (s : Sys) :
    Sys × Except Stuck Int :=
  match args with
  | [] => (s, .error .nullDeref)            -- strcmp(args[0], "quit") with args[0] == NULL
  | file :: _ =>
    if file = quitName ∨ file = exitName then (s, .ok 5)
    else
      match os s.forks with
      | .failed => ({ forks := s.forks + 1, trace := s.trace ++ [.forkError] }, .ok 1)
      | reply =>
        let s1 : Sys := { forks := s.forks + 1, trace := s.trace ++ childEvents file args reply }
        match waitLoop (childStatuses reply) with
        | some n => (s1.emit (((childStatuses reply).take n).map .wait), .ok 1)
        | none => (s1.emit ((childStatuses reply).map .wait), .error .blocks)

/-- The `while (command != NULL)` loop of `processLine` over the entries of `commands`, with
the current value of `status`. -/
def processLoop (os : Nat → ForkReply) : List CString → Int → Sys → Sys × Except Stuck Int
  | [], status, s => (s, .ok status)
  | command :: later, _, s =>
    match parseLine command [' '] with
    | .error e => (s, .error e)
    | .ok args =>
      match executeCommand os args s with
      | (s1, .error e) => (s1, .error e)
      | (s1, .ok status) => processLoop os later status s1

/-- The function `processLine(line)`. -/
def processLine (os : Nat → ForkReply) (line : CString) (s : Sys) : Sys × Except Stuck Int :=
  match parseLine line [';'] with
  | .error e => (s, .error e)
  | .ok commands => processLoop os commands 1 s

/-- Removal of the final newline of a line returned by `getline` (`readLine`, and the same
code in `processBatchFile`). `getline` never returns an empty line. -/
def chomp (raw : CString) : CString :=
  if raw.getLast? = some '\n' then raw.dropLast else raw

/-- The interactive loop of `main` over the lines that `getline` will return from standard
input; at the end of the input `readLine` reports the error and exits. -/
def mainLoop (os : Nat → ForkReply) : List CString → Sys → Sys × Except Stuck Unit
  | [], s => (s.emit [.prompt, .readError], .error .exitFailure)
  | raw :: later, s =>
    let s1 := s.emit [.prompt]
    let line := chomp raw
    let run := if line ≠ [] then processLine os line s1 else (s1, .ok 1)
    match run with
    | (s2, .error e) => (s2, .error e)
    | (s2, .ok status) => if status ≠ 1 then (s2, .ok ()) else mainLoop os later s2

/-- The `while (getline ...)` loop of `processBatchFile` over the lines of the file, with the
line counter `i`. The value of `processLine` is stored in a local that is not read. -/
def batchLoop (os : Nat → ForkReply) : List CString → Nat → Sys → Sys × Except Stuck Unit
  | [], _, s => (s, .ok ())
  | raw :: later, i, s =>
    let s1 := s.emit [.echo i raw]
    let line := chomp raw
    if line ≠ [] then
      match processLine os line s1 with
      | (s2, .error e) => (s2, .error e)
      | (s2, .ok _) => batchLoop os later (i + 1) s2
    else batchLoop os later (i + 1) s1

/-- The function `processBatchFile(filename)`; `file` is `none` when `fopen` fails and the lines
of the file otherwise. -/
def processBatchFile (os : Nat → ForkReply) (file : Option (List CString)) (s : Sys) :
    Sys × Except Stuck Unit :=
  match file with
  | none => (s.emit [.openError], .error .exitFailure)
  | some lines => batchLoop os lines 0 s

/-- The function `main`: `batch` is `none` when the program has no argument and the file
named by `argv[1]` otherwise; `stdin` holds the lines of standard input. -/
def main (os : Nat → ForkReply) (batch : Option (Option (List CString))) (stdin : List CString) :
    Sys × Except Stuck Unit :=
  let s0 : Sys := { forks := 0, trace := [] }
  match batch with
  | none => mainLoop os stdin s0
  | some file =>
    match processBatchFile os file (s0.emit [.banner]) with
    | (s1, .error e) => (s1, .error e)
    | (s1, .ok _) => mainLoop os stdin s1

/-- The line `a;a;...a;` of `n` one-character statements, each followed by `;`. -/
def manyStatements : Nat → CString
  | 0 => []
  | n + 1 => 'a' :: ';' :: manyStatements n

/-- An operating system in which every `fork` succeeds and every child exits with code 0 at
the first `waitpid`. -/
def alwaysExits : Nat → ForkReply := fun _ => .running [.exited 0]

/-- The trace of statements run one after the other: for each argument vector in order, one
child is made that executes token 0 with the whole vector, then come the child's error message
and the waits that report a stop, if any, then the wait that reports the child's exit or
its termination by a signal; only then the next child is made. -/
inductive Sequential : List (List CString) → List Event → Prop where
  | done : Sequential [] []
  | step (file : CString) (rest : List CString) (mid : List Event) (status : WaitStatus)
      (later : List (List CString)) (trace : List Event)
      (hmid : ∀ e ∈ mid, e = Event.execError ∨ ∃ sig, e = Event.wait (.stopped sig))
      (hstatus : (WIFEXITED status || WIFSIGNALED status) = true)
      (hlater : Sequential later trace) :
      Sequential ((file :: rest) :: later)
        (Event.spawn file (file :: rest) :: (mid ++ Event.wait status :: trace))

theorem splitOnP_takeWhile_dropWhile (p : Char → Bool) (l : List Char) :
    l.splitOnP p = l.takeWhile (fun x => !p x) ::
      (match l.dropWhile (fun x => !p x) with
        | [] => []
        | _ :: r => r.splitOnP p) := by
  induction l with
  | nil => simp [List.splitOnP_nil]
  | cons c cs ih =>
    rw [List.splitOnP_cons]
    by_cases hc : p c = true
    · simp [hc, List.takeWhile, List.dropWhile]
    · simp only [Bool.not_eq_true] at hc
      rw [ih]
      simp [hc, List.takeWhile, List.dropWhile, List.modifyHead]

theorem length_dropWhile_le (p : Char → Bool) (l : List Char) :
    (l.dropWhile p).length ≤ l.length := by
  induction l with
  | nil => simp
  | cons c cs ih =>
    by_cases hc : p c = true
    · rw [List.dropWhile_cons_of_pos hc]; simp; omega
    · rw [List.dropWhile_cons_of_neg hc]

theorem splitRuns_nil (delim : CString) : splitRuns delim [] = [] := by
  simp [splitRuns, List.splitOnP_nil]

theorem splitRuns_cons_delim (delim : CString) (c : Char) (cs : CString)
    (hc : isDelim delim c = true) : splitRuns delim (c :: cs) = splitRuns delim cs := by
  simp [splitRuns, List.splitOnP_cons, hc]

theorem splitRuns_dropWhile (delim s : CString) :
    splitRuns delim (s.dropWhile (isDelim delim)) = splitRuns delim s := by
  induction s with
  | nil => rfl
  | cons c cs ih =>
    by_cases hc : isDelim delim c = true
    · rw [List.dropWhile_cons_of_pos hc, ih, splitRuns_cons_delim delim c cs hc]
    · rw [List.dropWhile_cons_of_neg hc]

theorem strtok_none (delim s : CString) (h : strtok s delim = none) :
    splitRuns delim s = [] := by
  unfold strtok at h
  rw [← splitRuns_dropWhile]
  split at h
  · next heq => rw [heq, splitRuns_nil]
  · split at h <;> simp at h

theorem strtok_some (delim s token save : CString) (h : strtok s delim = some (token, save)) :
    splitRuns delim s = token :: splitRuns delim save ∧ save.length < s.length := by
  unfold strtok at h
  have hlen := length_dropWhile_le (isDelim delim) s
  rw [← splitRuns_dropWhile]
  split at h
  · simp at h
  · next c cs heq =>
    rw [heq] at hlen ⊢
    have hlen2 := length_dropWhile_le (fun x => !isDelim delim x) (c :: cs)
    have hc : isDelim delim c = false := by
      have := List.head_dropWhile_not (isDelim delim) s (by rw [heq]; simp)
      simpa [heq] using this
    have hsplit := splitOnP_takeWhile_dropWhile (isDelim delim) (c :: cs)
    have hne : (!((c :: cs).takeWhile (fun x => !isDelim delim x)).isEmpty) = true := by
      simp [List.takeWhile, hc]
    split at h
    · next heq2 =>
      simp only [Option.some.injEq, Prod.mk.injEq] at h
      obtain ⟨h1, h2⟩ := h
      subst h1 h2
      rw [heq2] at hsplit
      refine ⟨?_, by simp at hlen; simp; omega⟩
      simp only [splitRuns, hsplit, List.splitOnP_nil]
      simp only [List.filter_cons, hne, if_true]
      rfl
    · next d save2 heq2 =>
      simp only [Option.some.injEq, Prod.mk.injEq] at h
      obtain ⟨h1, h2⟩ := h
      subst h1 h2
      rw [heq2] at hsplit hlen2
      refine ⟨?_, by simp at hlen hlen2; omega⟩
      simp only [splitRuns, hsplit]
      simp only [List.filter_cons, hne, if_true]

theorem parseLoop_strtok (delim : CString) :
    ∀ (fuel : Nat) (s : CString) (tokens : List CString) (position : Nat),
      s.length < fuel → position ≤ MAX_SIZE →
      parseLoop delim fuel (strtok s delim) tokens position =
        if position + (splitRuns delim s).length < MAX_SIZE
        then .ok (tokens ++ splitRuns delim s) else .error (.oob MAX_SIZE) := by
  intro fuel
  induction fuel with
  | zero => intro s _ _ h; omega
  | succ fuel ih =>
    intro s tokens position hfuel hpos
    cases h : strtok s delim with
    | none =>
      rw [strtok_none delim s h]
      simp only [parseLoop, List.length_nil, Nat.add_zero, List.append_nil]
      by_cases hp : position < MAX_SIZE
      · simp [hp]
      · have : position = MAX_SIZE := by omega
        simp [this]
    | some pr =>
      obtain ⟨token, save⟩ := pr
      obtain ⟨hruns, hlen⟩ := strtok_some delim s token save h
      rw [hruns]
      simp only [parseLoop, List.length_cons]
      by_cases hp : position < MAX_SIZE
      · rw [if_pos hp, ih save (tokens ++ [token]) (position + 1) (by omega) (by omega)]
        have e : position + 1 + (splitRuns delim save).length
            = position + ((splitRuns delim save).length + 1) := by omega
        rw [e, List.append_assoc]
        rfl
      · have hp2 : ¬ position + ((splitRuns delim save).length + 1) < MAX_SIZE := by omega
        have : position = MAX_SIZE := by omega
        rw [if_neg hp, if_neg hp2, this]

/-- The value of `parseLine` on every input: the runs of the text when they and the final
`NULL` fit the array, an out-of-bounds store at index `MAX_SIZE` otherwise. -/
theorem parseLine_eq (line delim : CString) :
    parseLine line delim =
      if (splitRuns delim line).length < MAX_SIZE
      then .ok (splitRuns delim line) else .error (.oob MAX_SIZE) := by
  unfold parseLine
  rw [parseLoop_strtok delim (line.length + 1) line [] 0 (by omega) (by omega)]
  simp

theorem splitOnP_pieces_free (p : Char → Bool) :
    ∀ (n : Nat) (l : List Char), l.length < n → ∀ t ∈ l.splitOnP p, ∀ c ∈ t, p c = false := by
  intro n
  induction n with
  | zero => intro l h; omega
  | succ n ih =>
    intro l hl t ht c hc
    rw [splitOnP_takeWhile_dropWhile] at ht
    rcases List.mem_cons.mp ht with h | h
    · subst h
      have := List.mem_takeWhile_imp hc
      simpa using this
    · have hlen := length_dropWhile_le (fun x => !p x) l
      split at h
      · simp at h
      · next d r heq =>
        rw [heq] at hlen
        exact ih r (by simp at hlen; omega) t h c hc

theorem mem_splitRuns (delim text t : CString) (h : t ∈ splitRuns delim text) :
    t ≠ [] ∧ ∀ c ∈ t, c ∉ delim := by
  simp only [splitRuns, List.mem_filter] at h
  obtain ⟨hmem, hne⟩ := h
  refine ⟨by intro h0; simp [h0] at hne, ?_⟩
  intro c hc hcd
  have := splitOnP_pieces_free (isDelim delim) (text.length + 1) text (by omega) t hmem c hc
  simp [isDelim, hcd] at this

theorem splitRuns_manyStatements_append (n : Nat) (tail : CString) :
    splitRuns [';'] (manyStatements n ++ tail) = List.replicate n ['a'] ++ splitRuns [';'] tail := by
  induction n with
  | zero => rfl
  | succ n ih =>
    have h : strtok (manyStatements (n + 1) ++ tail) [';']
        = some (['a'], manyStatements n ++ tail) := by
      simp [manyStatements, strtok, isDelim, List.dropWhile, List.takeWhile]
    rw [(strtok_some [';'] _ _ _ h).1, ih]
    rfl

theorem splitRuns_manyStatements (n : Nat) :
    splitRuns [';'] (manyStatements n) = List.replicate n ['a'] := by
  have := splitRuns_manyStatements_append n []
  rwa [List.append_nil, splitRuns_nil, List.append_nil] at this

theorem isDelim_iff (delim : CString) (c : Char) : isDelim delim c = true ↔ c ∈ delim := by
  simp [isDelim]

theorem splitRuns_single (delim t : CString) (hne : t ≠ []) (hfree : ∀ c ∈ t, c ∉ delim) :
    splitRuns delim t = [t] := by
  have h : ∀ x ∈ t, ¬ isDelim delim x = true := fun x hx hd =>
    hfree x hx ((isDelim_iff delim x).mp hd)
  have hkeep : (!t.isEmpty) = true := by cases t with
    | nil => exact absurd rfl hne
    | cons _ _ => rfl
  have hsingle : t.splitOnP (isDelim delim) = [t] := List.splitOnP_eq_single _ t h
  simp only [splitRuns, hsingle, List.filter_cons, hkeep, if_true]
  rfl

theorem splitRuns_token (delim t : CString) (d : Char) (text : CString) (hne : t ≠ [])
    (hfree : ∀ c ∈ t, c ∉ delim) (hd : d ∈ delim) :
    splitRuns delim (t ++ d :: text) = t :: splitRuns delim text := by
  have h : ∀ x ∈ t, ¬ isDelim delim x = true := fun x hx hd =>
    hfree x hx ((isDelim_iff delim x).mp hd)
  have hkeep : (!t.isEmpty) = true := by cases t with
    | nil => exact absurd rfl hne
    | cons _ _ => rfl
  have hfirst : (t ++ d :: text).splitOnP (isDelim delim) = t :: text.splitOnP (isDelim delim) :=
    List.splitOnP_first _ t h d ((isDelim_iff delim d).mpr hd) text
  simp only [splitRuns, hfirst, List.filter_cons, hkeep, if_true]

/-- The tokenizer of the specification yields maximal runs. -/
theorem maximalRuns_splitRuns (delim : CString) :
    ∀ (n : Nat) (text : CString), text.length < n →
      MaximalRuns delim text (splitRuns delim text) := by
  intro n
  induction n with
  | zero => intro text h; omega
  | succ n ih =>
    intro text hlen
    cases text with
    | nil => rw [splitRuns_nil]; exact MaximalRuns.nil
    | cons c cs =>
      by_cases hc : isDelim delim c = true
      · rw [splitRuns_cons_delim delim c cs hc]
        exact MaximalRuns.skip c cs _ ((isDelim_iff delim c).mp hc)
          (ih cs (by simp at hlen; omega))
      · have hdecomp := List.takeWhile_append_dropWhile (fun x => !isDelim delim x) (c :: cs)
        have hfree : ∀ x ∈ (c :: cs).takeWhile (fun x => !isDelim delim x), x ∉ delim := by
          intro x hx hd
          have := List.mem_takeWhile_imp hx
          simp [(isDelim_iff delim x).mpr hd] at this
        have hne : (c :: cs).takeWhile (fun x => !isDelim delim x) ≠ [] := by
          simp [List.takeWhile, hc]
        have hdrop := length_dropWhile_le (fun x => !isDelim delim x) (c :: cs)
        cases hrest : (c :: cs).dropWhile (fun x => !isDelim delim x) with
        | nil =>
          rw [hrest, List.append_nil] at hdecomp
          rw [hdecomp] at hfree hne
          rw [splitRuns_single delim _ hne hfree]
          exact MaximalRuns.last _ hne hfree
        | cons d r =>
          have hd : d ∈ delim := by
            have := List.head_dropWhile_not (fun x => !isDelim delim x) (c :: cs)
              (by rw [hrest]; simp)
            simp only [hrest, List.head_cons, Bool.not_eq_false'] at this
            simpa using (isDelim_iff delim d).mp (by simpa using this)
          rw [hrest] at hdecomp hdrop
          rw [← hdecomp, splitRuns_token delim _ d r hne hfree hd]
          exact MaximalRuns.token _ d r _ hne hfree hd
            (ih r (by simp at hlen hdrop; omega))

/-- Maximal runs are unique: they are what the tokenizer of the specification yields. -/
theorem maximalRuns_unique (delim text : CString) (tokens : List CString)
    (h : MaximalRuns delim text tokens) : tokens = splitRuns delim text := by
  induction h with
  | nil => rw [splitRuns_nil]
  | skip d text tokens hd _ ih =>
    rw [splitRuns_cons_delim delim d text ((isDelim_iff delim d).mpr hd)]
    exact ih
  | last t hne hfree => rw [splitRuns_single delim t hne hfree]
  | token t d text tokens hne hfree hd _ ih =>
    rw [splitRuns_token delim t d text hne hfree hd, ih]

/-- Within the capacity of the array (at most 1023 maximal delimiter-free runs, so that they
and the final NULL fit the 1024 slots), `parseLine` returns exactly those runs in their
original order; every token is non-empty and holds no delimiter; the empty text gives the
empty sequence. -/
theorem parseLine_runs (line delim : CString)
    (hfit : (splitRuns delim line).length < MAX_SIZE) :
    parseLine line delim = .ok (splitRuns delim line) ∧
    (∀ tokens, parseLine line delim = .ok tokens ↔ MaximalRuns delim line tokens) ∧
    (∀ t ∈ splitRuns delim line, t ≠ [] ∧ ∀ c ∈ t, c ∉ delim) ∧
    parseLine [] delim = .ok [] := by
  have hparse : parseLine line delim = .ok (splitRuns delim line) := by
    rw [parseLine_eq, if_pos hfit]
  refine ⟨hparse, ?_, fun t ht => mem_splitRuns delim line t ht, ?_⟩
  · intro tokens
    rw [hparse]
    constructor
    · intro h
      cases h
      exact maximalRuns_splitRuns delim (line.length + 1) line (by omega)
    · intro h
      rw [maximalRuns_unique delim line tokens h]
  · rw [parseLine_eq, splitRuns_nil]; rfl

/-- The tokens of the text `a;;b` with delimiter `;` and of `echo  hi   there` with delimiter
blank. -/
theorem parseLine_runs_witness :
    (splitRuns [';'] ['a', ';', ';', 'b']).length < MAX_SIZE ∧
    parseLine ['a', ';', ';', 'b'] [';'] = .ok [['a'], ['b']] ∧
    parseLine "echo  hi   there".toList [' '] =
      .ok ["echo".toList, "hi".toList, "there".toList] :=
  ⟨by decide, (parseLine_runs ['a', ';', ';', 'b'] [';'] (by decide)).1,
   (parseLine_runs "echo  hi   there".toList [' '] (by decide)).1⟩

/-- Claim C1, the code at the text of 1025 statements `a;`: the text has 1025 maximal runs, and
`parseLine` does not return them; having filled the 1024 slots it stores the 1025th token at
index 1024, outside the array (the final NULL would follow at index 1025). -/
theorem parseLine_overflow :
    splitRuns [';'] (manyStatements 1025) = List.replicate 1025 ['a'] ∧
    MaximalRuns [';'] (manyStatements 1025) (List.replicate 1025 ['a']) ∧
    parseLine (manyStatements 1025) [';'] = .error (.oob 1024) ∧
    parseLine (manyStatements 1025) [';'] ≠ .ok (List.replicate 1025 ['a']) := by
  have h : parseLine (manyStatements 1025) [';'] = .error (.oob 1024) := by
    rw [parseLine_eq, splitRuns_manyStatements, List.length_replicate, if_neg (by decide)]
    rfl
  refine ⟨splitRuns_manyStatements 1025, ?_, h, ?_⟩
  · have := maximalRuns_splitRuns [';'] ((manyStatements 1025).length + 1) (manyStatements 1025)
      (by omega)
    rwa [splitRuns_manyStatements] at this
  · rw [h]
    intro hcontra
    cases hcontra

/-- Claim C10: every store of `parseLine` into its array of 1024 slots (the tokens and the final
NULL) is in bounds exactly when the input has at most 1023 tokens; with 1024 or more tokens
a store goes to index 1024, outside the array, as for 1024 one-character statements. -/
theorem parseLine_bounds (line delim : CString) :
    MAX_SIZE = 1024 ∧
    ((∃ tokens, parseLine line delim = .ok tokens) ↔ (splitRuns delim line).length ≤ 1023) ∧
    ((∃ index, MAX_SIZE ≤ index ∧ parseLine line delim = .error (.oob index)) ↔
      1024 ≤ (splitRuns delim line).length) ∧
    parseLine (manyStatements 1024) [';'] = .error (.oob 1024) := by
  refine ⟨rfl, ?_, ?_, ?_⟩
  · rw [parseLine_eq]
    by_cases h : (splitRuns delim line).length < MAX_SIZE
    · rw [if_pos h]
      simp only [MAX_SIZE] at h
      exact ⟨fun _ => by omega, fun _ => ⟨_, rfl⟩⟩
    · rw [if_neg h]
      simp only [MAX_SIZE] at h
      constructor
      · rintro ⟨tokens, ht⟩
        cases ht
      · intro h2
        omega
  · rw [parseLine_eq]
    by_cases h : (splitRuns delim line).length < MAX_SIZE
    · rw [if_pos h]
      simp only [MAX_SIZE] at h
      constructor
      · rintro ⟨index, _, ht⟩
        cases ht
      · intro h2
        omega
    · rw [if_neg h]
      simp only [MAX_SIZE] at h
      exact ⟨fun _ => by omega, fun _ => ⟨MAX_SIZE, le_refl _, rfl⟩⟩
  · rw [parseLine_eq, splitRuns_manyStatements, List.length_replicate,
      if_neg (by decide)]
    rfl

/-- A status after which the wait loop is left. -/
theorem terminal_or_stopped (x : WaitStatus) :
    (!WIFEXITED x && !WIFSIGNALED x) = true ↔ ∃ sig, x = .stopped sig := by
  cases x <;> simp [WIFEXITED, WIFSIGNALED]

theorem waitLoop_append (stops : List WaitStatus) (status : WaitStatus)
    (later : List WaitStatus) (hstops : ∀ x ∈ stops, ∃ sig, x = .stopped sig)
    (hstatus : (WIFEXITED status || WIFSIGNALED status) = true) :
    waitLoop (stops ++ status :: later) = some (stops.length + 1) := by
  induction stops with
  | nil =>
    have : (!WIFEXITED status && !WIFSIGNALED status) = false := by
      cases status <;> simp_all [WIFEXITED, WIFSIGNALED]
    simp [waitLoop, this]
  | cons x xs ih =>
    have hx := (terminal_or_stopped x).mpr (hstops x (List.mem_cons_self _ _))
    have := ih (fun y hy => hstops y (List.mem_cons_of_mem _ hy))
    simp [waitLoop, hx, this]

theorem waitLoop_some (statuses : List WaitStatus) :
    ∀ n, waitLoop statuses = some n →
      ∃ stops status later, statuses = stops ++ status :: later ∧
        (∀ x ∈ stops, ∃ sig, x = .stopped sig) ∧
        (WIFEXITED status || WIFSIGNALED status) = true ∧ n = stops.length + 1 := by
  induction statuses with
  | nil => intro n h; simp [waitLoop] at h
  | cons x xs ih =>
    intro n h
    by_cases hx : (!WIFEXITED x && !WIFSIGNALED x) = true
    · simp only [waitLoop, hx, if_true, Option.map_eq_some'] at h
      obtain ⟨m, hm, rfl⟩ := h
      obtain ⟨stops, status, later, h1, h2, h3, h4⟩ := ih m hm
      refine ⟨x :: stops, status, later, by rw [h1]; rfl, ?_, h3, by simp [h4]⟩
      intro y hy
      rcases List.mem_cons.mp hy with rfl | hy
      · exact (terminal_or_stopped _).mp hx
      · exact h2 y hy
    · simp only [waitLoop, hx] at h
      refine ⟨[], x, xs, rfl, by simp, ?_, by simpa using h.symm⟩
      cases x <;> simp_all [WIFEXITED, WIFSIGNALED]

theorem waitLoop_none (statuses : List WaitStatus) :
    waitLoop statuses = none ↔ ∀ x ∈ statuses, ∃ sig, x = .stopped sig := by
  induction statuses with
  | nil => simp [waitLoop]
  | cons x xs ih =>
    by_cases hx : (!WIFEXITED x && !WIFSIGNALED x) = true
    · have hs := (terminal_or_stopped x).mp hx
      simp only [waitLoop, hx, if_true, Option.map_eq_none', ih, List.mem_cons, forall_eq_or_imp]
      exact ⟨fun h => ⟨hs, h⟩, fun h => h.2⟩
    · simp only [waitLoop, hx]
      constructor
      · intro h; simp at h
      · intro h
        exact absurd ((terminal_or_stopped x).mpr (h x (List.mem_cons_self _ _))) hx

/-- A control command returns 5 and leaves the state as it is. -/
theorem executeCommand_control (os : Nat → ForkReply) (file : CString) (rest : List CString)
    (s : Sys) (h : file = quitName ∨ file = exitName) :
    executeCommand os (file :: rest) s = (s, .ok 5) := by
  simp [executeCommand, h]

/-- A command whose `fork` fails reports the error and returns 1. -/
theorem executeCommand_forkFailed (os : Nat → ForkReply) (file : CString)
    (rest : List CString) (s : Sys) (hq : file ≠ quitName) (he : file ≠ exitName)
    (hos : os s.forks = .failed) :
    executeCommand os (file :: rest) s =
      ({ forks := s.forks + 1, trace := s.trace ++ [.forkError] }, .ok 1) := by
  simp [executeCommand, hq, he, hos]

/-- A command whose child is made and whose wait loop ends after `n` calls returns 1. -/
theorem executeCommand_waited (os : Nat → ForkReply) (file : CString) (rest : List CString)
    (s : Sys) (n : Nat) (hq : file ≠ quitName) (he : file ≠ exitName)
    (hos : os s.forks ≠ .failed) (hw : waitLoop (childStatuses (os s.forks)) = some n) :
    executeCommand os (file :: rest) s =
      ({ forks := s.forks + 1,
         trace := s.trace ++ childEvents file (file :: rest) (os s.forks) ++
           ((childStatuses (os s.forks)).take n).map .wait }, .ok 1) := by
  cases h : os s.forks with
  | failed => exact absurd h hos
  | execFailed =>
    rw [h] at hw
    simp [executeCommand, hq, he, h, hw, Sys.emit]
  | running statuses =>
    rw [h] at hw
    simp [executeCommand, hq, he, h, hw, Sys.emit]

/-- A command whose child never reports a final status does not return. -/
theorem executeCommand_blocked (os : Nat → ForkReply) (file : CString) (rest : List CString)
    (s : Sys) (hq : file ≠ quitName) (he : file ≠ exitName)
    (hos : os s.forks ≠ .failed) (hw : waitLoop (childStatuses (os s.forks)) = none) :
    (executeCommand os (file :: rest) s).2 = .error .blocks := by
  cases h : os s.forks with
  | failed => exact absurd h hos
  | execFailed =>
    rw [h] at hw
    simp [executeCommand, hq, he, h, hw, Sys.emit]
  | running statuses =>
    rw [h] at hw
    simp [executeCommand, hq, he, h, hw, Sys.emit]

/-- The result of a command that is not a control command is never 5. -/
theorem executeCommand_ordinary (os : Nat → ForkReply) (file : CString) (rest : List CString)
    (s : Sys) (hq : file ≠ quitName) (he : file ≠ exitName) :
    (executeCommand os (file :: rest) s).2 = .ok 1 ∨
    (executeCommand os (file :: rest) s).2 = .error .blocks := by
  by_cases hos : os s.forks = .failed
  · left
    rw [executeCommand_forkFailed os file rest s hq he hos]
  · cases hw : waitLoop (childStatuses (os s.forks)) with
    | none => right; exact executeCommand_blocked os file rest s hq he hos hw
    | some n => left; rw [executeCommand_waited os file rest s n hq he hos hw]

/-- One turn of the interactive loop on a non-empty line whose status is 1 goes on to the
next prompt. -/
theorem mainLoop_continue (os : Nat → ForkReply) (raw : CString) (later : List CString)
    (s : Sys) (hline : chomp raw ≠ [])
    (hrun : (processLine os (chomp raw) (s.emit [.prompt])).2 = .ok 1) :
    mainLoop os (raw :: later) s =
      mainLoop os later (processLine os (chomp raw) (s.emit [.prompt])).1 := by
  rcases hp : processLine os (chomp raw) (s.emit [.prompt]) with ⟨s2, r⟩
  rw [hp] at hrun
  simp only at hrun
  subst hrun
  simp [mainLoop, hline, hp]

/-- One turn of the interactive loop on a non-empty line whose status is 5 leaves the loop:
`main` returns and the later input is not read. -/
theorem mainLoop_break (os : Nat → ForkReply) (raw : CString) (later : List CString)
    (s : Sys) (hline : chomp raw ≠ [])
    (hrun : (processLine os (chomp raw) (s.emit [.prompt])).2 = .ok 5) :
    mainLoop os (raw :: later) s =
      ((processLine os (chomp raw) (s.emit [.prompt])).1, .ok ()) := by
  rcases hp : processLine os (chomp raw) (s.emit [.prompt]) with ⟨s2, r⟩
  rw [hp] at hrun
  simp only at hrun
  subst hrun
  simp [mainLoop, hline, hp]

/-- Claim C2: for a non-empty argument list, `executeCommand` returns 5 exactly when the first
token is `exit` or `quit`, whatever the other arguments, and then the state is unchanged (no
`fork`, no event); so `exit` or `quit` in a later position does not give 5. -/
theorem executeCommand_exit_iff (os : Nat → ForkReply) (file : CString) (rest : List CString)
    (s : Sys) :
    ((executeCommand os (file :: rest) s).2 = .ok 5 ↔ (file = exitName ∨ file = quitName)) ∧
    ((file = exitName ∨ file = quitName) → executeCommand os (file :: rest) s = (s, .ok 5)) := by
  have hctl : (file = exitName ∨ file = quitName) →
      executeCommand os (file :: rest) s = (s, .ok 5) :=
    fun h => executeCommand_control os file rest s h.symm
  refine ⟨⟨?_, fun h => by rw [hctl h]⟩, hctl⟩
  intro h5
  by_contra hn
  push_neg at hn
  rcases executeCommand_ordinary os file rest s hn.2 hn.1 with h | h
  · rw [h] at h5; cases h5
  · rw [h] at h5; cases h5

/-- The claim C2 at two argument lists: `exit now` gives 5 without any event, while
`ls exit` does not give 5. -/
theorem executeCommand_exit_iff_witness :
    executeCommand (fun _ => .running [.exited 0]) [exitName, ['n', 'o', 'w']] ⟨0, []⟩
      = (⟨0, []⟩, .ok 5) ∧
    ¬ (executeCommand (fun _ => .running [.exited 0]) [['l', 's'], exitName] ⟨0, []⟩).2
      = .ok 5 :=
  ⟨(executeCommand_exit_iff _ exitName [['n', 'o', 'w']] ⟨0, []⟩).2 (Or.inl rfl),
   fun h => absurd ((executeCommand_exit_iff _ ['l', 's'] [exitName] ⟨0, []⟩).1.mp h)
     (by decide)⟩

/-- Claim C7: for a non-empty argument list whose first token is neither `exit` nor `quit`,
`executeCommand` returns 1 when `fork` fails, when the child's `execvp` fails, when the child
exits with any code and when it is killed by a signal (after any number of stops); and a
line whose status is 1 does not end the interactive loop. -/
theorem executeCommand_continue (os : Nat → ForkReply) (file : CString) (rest : List CString)
    (s : Sys) (hq : file ≠ quitName) (he : file ≠ exitName) :
    (os s.forks = .failed → (executeCommand os (file :: rest) s).2 = .ok 1) ∧
    (os s.forks = .execFailed → (executeCommand os (file :: rest) s).2 = .ok 1) ∧
    (∀ stops code later, (∀ x ∈ stops, ∃ sig, x = WaitStatus.stopped sig) →
      os s.forks = .running (stops ++ .exited code :: later) →
      (executeCommand os (file :: rest) s).2 = .ok 1) ∧
    (∀ stops sig later, (∀ x ∈ stops, ∃ g, x = WaitStatus.stopped g) →
      os s.forks = .running (stops ++ .signaled sig :: later) →
      (executeCommand os (file :: rest) s).2 = .ok 1) ∧
    (∀ raw later s0, chomp raw ≠ [] →
      (processLine os (chomp raw) (Sys.emit s0 [.prompt])).2 = .ok 1 →
      mainLoop os (raw :: later) s0 =
        mainLoop os later (processLine os (chomp raw) (Sys.emit s0 [.prompt])).1) := by
  refine ⟨?_, ?_, ?_, ?_, ?_⟩
  · intro h
    rw [executeCommand_forkFailed os file rest s hq he h]
  · intro h
    rw [executeCommand_waited os file rest s 1 hq he (by rw [h]; simp) (by rw [h]; rfl)]
  · intro stops code later hstops h
    rw [executeCommand_waited os file rest s (stops.length + 1) hq he (by rw [h]; simp)
      (by rw [h]; exact waitLoop_append stops _ later hstops rfl)]
  · intro stops sig later hstops h
    rw [executeCommand_waited os file rest s (stops.length + 1) hq he (by rw [h]; simp)
      (by rw [h]; exact waitLoop_append stops _ later hstops rfl)]
  · intro raw later s0 hline hrun
    exact mainLoop_continue os raw later s0 hline hrun

/-- The claim C7 at one argument list: a command that is not found returns 1. -/
theorem executeCommand_continue_witness :
    (['n', 'o', 'p', 'e'] : CString) ≠ quitName ∧ (['n', 'o', 'p', 'e'] : CString) ≠ exitName ∧
    (executeCommand (fun _ => .execFailed) [['n', 'o', 'p', 'e']] ⟨0, []⟩).2 = .ok 1 :=
  ⟨by decide, by decide,
   (executeCommand_continue (fun _ => .execFailed) ['n', 'o', 'p', 'e'] [] ⟨0, []⟩
     (by decide) (by decide)).2.1 rfl⟩

/-- Claim C9: against every sequence of statuses reported by `waitpid`, the wait loop ends
after `n` calls exactly when the `n`-th status is the first that is an exit or a termination
by signal, all earlier ones being stops; it never ends on stops alone; and `executeCommand`
then waits through every stop, returning only at that first final status and not at all when
the child is only ever stopped. -/
theorem waitLoop_first_terminal (statuses : List WaitStatus) :
    (∀ n, waitLoop statuses = some n ↔
      ∃ stops status later, statuses = stops ++ status :: later ∧
        (∀ x ∈ stops, ∃ sig, x = WaitStatus.stopped sig) ∧
        (WIFEXITED status || WIFSIGNALED status) = true ∧ n = stops.length + 1) ∧
    (waitLoop statuses = none ↔ ∀ x ∈ statuses, ∃ sig, x = WaitStatus.stopped sig) ∧
    (∀ (os : Nat → ForkReply) (file : CString) (rest : List CString) (s : Sys),
      file ≠ quitName → file ≠ exitName → os s.forks = .running statuses →
      (∀ stops status later, statuses = stops ++ status :: later →
        (∀ x ∈ stops, ∃ sig, x = WaitStatus.stopped sig) →
        (WIFEXITED status || WIFSIGNALED status) = true →
        executeCommand os (file :: rest) s =
          ({ forks := s.forks + 1,
             trace := s.trace ++ [.spawn file (file :: rest)] ++
               (stops ++ [status]).map .wait }, .ok 1)) ∧
      ((∀ x ∈ statuses, ∃ sig, x = WaitStatus.stopped sig) →
        (executeCommand os (file :: rest) s).2 = .error .blocks)) := by
  refine ⟨fun n => ⟨waitLoop_some statuses n, ?_⟩, waitLoop_none statuses, ?_⟩
  · rintro ⟨stops, status, later, rfl, h1, h2, rfl⟩
    exact waitLoop_append stops status later h1 h2
  · intro os file rest s hq he hos
    constructor
    · intro stops status later hst h1 h2
      subst hst
      rw [executeCommand_waited os file rest s (stops.length + 1) hq he (by rw [hos]; simp)
        (by rw [hos]; exact waitLoop_append stops status later h1 h2)]
      simp [hos, childEvents, childStatuses, List.take_append_eq_append_take]
    · intro hall
      exact executeCommand_blocked os file rest s hq he (by rw [hos]; simp)
        (by rw [hos]; exact (waitLoop_none statuses).mpr hall)

/-- The claim C9 at two status lists: two stops and then an exit need three calls of
`waitpid`; a status list of stops only never ends the loop. -/
theorem waitLoop_first_terminal_witness :
    waitLoop [.stopped 19, .stopped 20, .exited 0, .stopped 19] = some 3 ∧
    waitLoop [.stopped 19, .stopped 20] = none :=
  ⟨((waitLoop_first_terminal [.stopped 19, .stopped 20, .exited 0, .stopped 19]).1 3).mpr
     ⟨[.stopped 19, .stopped 20], .exited 0, [.stopped 19], rfl, by simp, rfl, rfl⟩,
   (waitLoop_first_terminal [.stopped 19, .stopped 20]).2.1.mpr (by simp)⟩

/-- Within the capacity of the array, `processLine` runs its loop over the runs of the line. -/
theorem processLine_eq (os : Nat → ForkReply) (line : CString) (s : Sys)
    (hfit : (splitRuns [';'] line).length < MAX_SIZE) :
    processLine os line s = processLoop os (splitRuns [';'] line) 1 s := by
  simp [processLine, parseLine_eq, hfit]

/-- One turn of the loop of `processLine` on a command within the capacity of the array. -/
theorem processLoop_cons (os : Nat → ForkReply) (command : CString) (later : List CString)
    (status : Int) (s : Sys) (hfit : (splitRuns [' '] command).length < MAX_SIZE) :
    processLoop os (command :: later) status s =
      match executeCommand os (splitRuns [' '] command) s with
      | (s1, .error e) => (s1, .error e)
      | (s1, .ok status1) => processLoop os later status1 s1 := by
  simp only [processLoop, parseLine_eq, hfit, if_true]

/-- A command that is made, waited for and finished: the events it adds. -/
theorem executeCommand_spawned (os : Nat → ForkReply) (file : CString) (rest : List CString)
    (s : Sys) (hq : file ≠ quitName) (he : file ≠ exitName)
    (hos : os s.forks ≠ .failed) (hw : waitLoop (childStatuses (os s.forks)) ≠ none) :
    ∃ mid status,
      (∀ e ∈ mid, e = Event.execError ∨ ∃ sig, e = Event.wait (.stopped sig)) ∧
      (WIFEXITED status || WIFSIGNALED status) = true ∧
      executeCommand os (file :: rest) s =
        ({ forks := s.forks + 1,
           trace := s.trace ++
             (Event.spawn file (file :: rest) :: (mid ++ [Event.wait status])) }, .ok 1) := by
  obtain ⟨n, hn⟩ := Option.ne_none_iff_exists'.mp hw
  obtain ⟨stops, status, later, hsplit, hstops, hstatus, rfl⟩ := waitLoop_some _ n hn
  rw [executeCommand_waited os file rest s _ hq he hos hn, hsplit]
  cases h : os s.forks with
  | failed => exact absurd h hos
  | execFailed =>
    refine ⟨Event.execError :: stops.map Event.wait, status, ?_, hstatus, ?_⟩
    · intro e he
      rcases List.mem_cons.mp he with rfl | he
      · exact Or.inl rfl
      · obtain ⟨x, hx, rfl⟩ := List.mem_map.mp he
        obtain ⟨sig, rfl⟩ := hstops x hx
        exact Or.inr ⟨sig, rfl⟩
    · simp [childEvents, List.take_append_eq_append_take]
  | running statuses =>
    refine ⟨stops.map Event.wait, status, ?_, hstatus, ?_⟩
    · intro e he
      obtain ⟨x, hx, rfl⟩ := List.mem_map.mp he
      obtain ⟨sig, rfl⟩ := hstops x hx
      exact Or.inr ⟨sig, rfl⟩
    · simp [childEvents, List.take_append_eq_append_take]

/-- The loop of `processLine` over ordinary commands whose children all finish. -/
theorem processLoop_sequential (os : Nat → ForkReply)
    (hos : ∀ i, os i ≠ .failed ∧ waitLoop (childStatuses (os i)) ≠ none) :
    ∀ (commands : List CString) (s : Sys),
      (∀ c ∈ commands, (splitRuns [' '] c).length < MAX_SIZE ∧
        ∃ file rest, splitRuns [' '] c = file :: rest ∧ file ≠ exitName ∧ file ≠ quitName) →
      ∃ trace,
        processLoop os commands 1 s =
          ({ forks := s.forks + commands.length, trace := s.trace ++ trace }, .ok 1) ∧
        Sequential (commands.map (splitRuns [' '])) trace := by
  intro commands
  induction commands with
  | nil => intro s _; exact ⟨[], by simp [processLoop], Sequential.done⟩
  | cons c cs ih =>
    intro s hargs
    obtain ⟨hfit, file, rest, hsplit, he, hq⟩ := hargs c (List.mem_cons_self _ _)
    obtain ⟨mid, status, hmid, hstatus, hexec⟩ :=
      executeCommand_spawned os file rest s hq he (hos s.forks).1 (hos s.forks).2
    obtain ⟨trace, hloop, hseq⟩ :=
      ih { forks := s.forks + 1,
           trace := s.trace ++ (Event.spawn file (file :: rest) :: (mid ++ [Event.wait status])) }
        (fun c' hc' => hargs c' (List.mem_cons_of_mem _ hc'))
    refine ⟨Event.spawn file (file :: rest) :: (mid ++ Event.wait status :: trace), ?_, ?_⟩
    · rw [processLoop_cons os c cs 1 s hfit, hsplit, hexec]
      simp only [hloop, List.length_cons]
      simp [Nat.add_assoc, Nat.add_comm 1]
    · rw [List.map_cons, hsplit]
      exact Sequential.step file rest mid status _ trace hmid hstatus hseq

/-- Within the capacity of the array (at most 1023 statements, each of at most 1023 tokens),
when each statement has a first token other than `exit` and `quit`, every `fork` succeeds and
every child finishes, `processLine` returns 1 after one `fork` per statement, and the events
it adds are those of the statements run one after the other. -/
theorem processLine_sequential (os : Nat → ForkReply) (line : CString) (s : Sys)
    (hfit : (splitRuns [';'] line).length < MAX_SIZE)
    (hargs : ∀ c ∈ splitRuns [';'] line, (splitRuns [' '] c).length < MAX_SIZE ∧
      splitRuns [' '] c ≠ [] ∧ (splitRuns [' '] c).head? ≠ some exitName ∧
      (splitRuns [' '] c).head? ≠ some quitName)
    (hos : ∀ i, os i ≠ .failed ∧ waitLoop (childStatuses (os i)) ≠ none) :
    ∃ trace,
      processLine os line s =
        ({ forks := s.forks + (splitRuns [';'] line).length, trace := s.trace ++ trace },
          .ok 1) ∧
      Sequential ((splitRuns [';'] line).map (splitRuns [' '])) trace := by
  rw [processLine_eq os line s hfit]
  apply processLoop_sequential os hos
  intro c hc
  obtain ⟨h1, h2, h3, h4⟩ := hargs c hc
  refine ⟨h1, ?_⟩
  cases hsplit : splitRuns [' '] c with
  | nil => exact absurd hsplit h2
  | cons file rest =>
    rw [hsplit] at h3 h4
    exact ⟨file, rest, rfl, by simpa using h3, by simpa using h4⟩

/-- The run of the line `echo hello; echo world`. -/
theorem processLine_sequential_witness :
    ∃ trace,
      processLine alwaysExits "echo hello; echo world".toList ⟨0, []⟩ =
        (⟨0 + 2, [] ++ trace⟩, .ok 1) ∧
      Sequential [["echo".toList, "hello".toList], ["echo".toList, "world".toList]] trace :=
  processLine_sequential alwaysExits "echo hello; echo world".toList ⟨0, []⟩
    (by decide) (by decide) (fun _ => ⟨by simp [alwaysExits], by simp [alwaysExits, childStatuses, waitLoop, WIFEXITED]⟩)

/-- Claim C5, the code at the line of 1025 statements `a;`: each statement has the one token
`a`, yet `processLine` makes no child and does not return 1; its first `parseLine` stores
outside the 1024-slot array, at index 1024. -/
theorem processLine_overflow :
    (splitRuns [';'] (manyStatements 1025)).length = 1025 ∧
    (∀ c ∈ splitRuns [';'] (manyStatements 1025), splitRuns [' '] c = [['a']]) ∧
    processLine alwaysExits (manyStatements 1025) ⟨0, []⟩ = (⟨0, []⟩, .error (.oob 1024)) := by
  refine ⟨by rw [splitRuns_manyStatements, List.length_replicate], ?_, ?_⟩
  · intro c hc
    rw [splitRuns_manyStatements] at hc
    rw [List.eq_of_mem_replicate hc]
    decide
  · have h : parseLine (manyStatements 1025) [';'] = .error (.oob 1024) := by
      rw [parseLine_eq, splitRuns_manyStatements, List.length_replicate, if_neg (by decide)]
      rfl
    simp [processLine, h]

/-- Claim C3, the code at `exit;ls`: the statement `ls` after `exit` is run, `processLine`
returns 1, and the interactive loop prompts again. -/
theorem processLine_exit_then_ls :
    processLine alwaysExits "exit;ls".toList ⟨0, []⟩ =
      (⟨1, [.spawn "ls".toList ["ls".toList], .wait (.exited 0)]⟩, .ok 1) ∧
    mainLoop alwaysExits ["exit;ls\n".toList] ⟨0, []⟩ =
      (⟨1, [.prompt, .spawn "ls".toList ["ls".toList], .wait (.exited 0), .prompt,
            .readError]⟩, .error .exitFailure) := by
  constructor <;> decide

/-- Claim C4, the code at lines of blanks: the statement ` ` gives an empty argument array,
which is handed to `executeCommand`, where `strcmp` reads `args[0] == NULL`; a line of
`;` only has no statement and returns 1. -/
theorem processLine_blank_statement (os : Nat → ForkReply) (s : Sys) :
    parseLine [' '] [';'] = .ok [[' ']] ∧ parseLine [' '] [' '] = .ok [] ∧
    processLine os [' '] s = (s, .error .nullDeref) ∧
    processLine os [' ', ';', ' '] s = (s, .error .nullDeref) ∧
    processLine os [';', ';'] s = (s, .ok 1) :=
  ⟨by decide, by decide, rfl, rfl, rfl⟩

/-- Claim C6, the code on the batch file `ls;pwd`, `exit`, `ls`: the value 5 of the second
line is dropped, the third line is echoed as `Line[2]` and run, and the interactive prompt
follows. -/
theorem batch_exit_ignored :
    main alwaysExits (some (some ["ls;pwd\n".toList, "exit\n".toList, "ls\n".toList])) [] =
      (⟨3, [.banner, .echo 0 "ls;pwd\n".toList,
            .spawn "ls".toList ["ls".toList], .wait (.exited 0),
            .spawn "pwd".toList ["pwd".toList], .wait (.exited 0),
            .echo 1 "exit\n".toList, .echo 2 "ls\n".toList,
            .spawn "ls".toList ["ls".toList], .wait (.exited 0),
            .prompt, .readError]⟩, .error .exitFailure) := by
  decide

/-- A non-empty command returns when its `fork` fails or its child finishes. -/
theorem executeCommand_returns (os : Nat → ForkReply) (args : List CString) (s : Sys)
    (hne : args ≠ [])
    (hos : os s.forks = .failed ∨ waitLoop (childStatuses (os s.forks)) ≠ none) :
    ∃ s1 status, executeCommand os args s = (s1, .ok status) := by
  cases args with
  | nil => exact absurd rfl hne
  | cons file rest =>
    by_cases hc : file = quitName ∨ file = exitName
    · exact ⟨s, 5, executeCommand_control os file rest s hc⟩
    · push_neg at hc
      by_cases hf : os s.forks = .failed
      · exact ⟨_, 1, executeCommand_forkFailed os file rest s hc.1 hc.2 hf⟩
      · rcases hos with h | h
        · exact absurd h hf
        · obtain ⟨n, hn⟩ := Option.ne_none_iff_exists'.mp h
          exact ⟨_, 1, executeCommand_waited os file rest s n hc.1 hc.2 hf hn⟩

/-- The loop of `processLine` ends with the last command: its value is the value of
`executeCommand` on the last command, run in the state left by the commands before it. -/
theorem processLoop_concat (os : Nat → ForkReply)
    (hos : ∀ i, os i = .failed ∨ waitLoop (childStatuses (os i)) ≠ none) (last : CString)
    (hlast : (splitRuns [' '] last).length < MAX_SIZE) :
    ∀ (commands : List CString) (status : Int) (s : Sys),
      (∀ c ∈ commands, (splitRuns [' '] c).length < MAX_SIZE ∧ splitRuns [' '] c ≠ []) →
      processLoop os (commands ++ [last]) status s =
        executeCommand os (splitRuns [' '] last) (processLoop os commands status s).1 := by
  intro commands
  induction commands with
  | nil =>
    intro status s _
    have hstate : (processLoop os [] status s).1 = s := rfl
    rw [List.nil_append, processLoop_cons os last [] status s hlast, hstate]
    rcases executeCommand os (splitRuns [' '] last) s with ⟨s1, r⟩
    cases r <;> rfl
  | cons c cs ih =>
    intro status s hargs
    obtain ⟨hfit, hne⟩ := hargs c (List.mem_cons_self _ _)
    obtain ⟨s1, status1, hexec⟩ := executeCommand_returns os _ s hne (hos s.forks)
    rw [List.cons_append, processLoop_cons os c _ status s hfit,
      processLoop_cons os c cs status s hfit, hexec]
    exact ih status1 s1 (fun c' hc' => hargs c' (List.mem_cons_of_mem _ hc'))

/-- The loop of `processLine` returns when every command is non-empty and finishes. -/
theorem processLoop_returns (os : Nat → ForkReply)
    (hos : ∀ i, os i = .failed ∨ waitLoop (childStatuses (os i)) ≠ none) :
    ∀ (commands : List CString) (status : Int) (s : Sys),
      (∀ c ∈ commands, (splitRuns [' '] c).length < MAX_SIZE ∧ splitRuns [' '] c ≠ []) →
      ∃ s1 status1, processLoop os commands status s = (s1, .ok status1) := by
  intro commands
  induction commands with
  | nil => intro status s _; exact ⟨s, status, rfl⟩
  | cons c cs ih =>
    intro status s hargs
    obtain ⟨hfit, hne⟩ := hargs c (List.mem_cons_self _ _)
    obtain ⟨s1, status1, hexec⟩ := executeCommand_returns os _ s hne (hos s.forks)
    rw [processLoop_cons os c cs status s hfit, hexec]
    exact ih status1 s1 (fun c' hc' => hargs c' (List.mem_cons_of_mem _ hc'))

/-- Within the capacity of the array (at least one and at most 1023 statements, each of at
least one and at most 1023 tokens), when every child that is made finishes, `processLine`
returns what `executeCommand` returns for the last statement of the line, run in the state
left by the loop over the statements before it; when the first token of that statement is
`exit` or `quit` the value is 5 and the interactive loop of `main` ends there. -/
theorem processLine_last_status (os : Nat → ForkReply) (line : CString) (s : Sys)
    (hne : splitRuns [';'] line ≠ [])
    (hfit : (splitRuns [';'] line).length < MAX_SIZE)
    (hargs : ∀ c ∈ splitRuns [';'] line,
      (splitRuns [' '] c).length < MAX_SIZE ∧ splitRuns [' '] c ≠ [])
    (hos : ∀ i, os i = .failed ∨ waitLoop (childStatuses (os i)) ≠ none) :
    (∃ s1 status, processLine os line s = (s1, .ok status)) ∧
    processLine os line s =
      executeCommand os (splitRuns [' '] ((splitRuns [';'] line).getLast hne))
        (processLoop os (splitRuns [';'] line).dropLast 1 s).1 ∧
    (((splitRuns [' '] ((splitRuns [';'] line).getLast hne)).head? = some exitName ∨
      (splitRuns [' '] ((splitRuns [';'] line).getLast hne)).head? = some quitName) →
      (processLine os line s).2 = .ok 5 ∧
      ∀ raw later s0, chomp raw = line → s = Sys.emit s0 [.prompt] →
        mainLoop os (raw :: later) s0 = ((processLine os line s).1, .ok ())) := by
  have hlastmem := List.getLast_mem hne
  have hsplit := List.dropLast_append_getLast hne
  have hdrop : ∀ c ∈ (splitRuns [';'] line).dropLast,
      (splitRuns [' '] c).length < MAX_SIZE ∧ splitRuns [' '] c ≠ [] :=
    fun c hc => hargs c (List.mem_of_mem_dropLast hc)
  have hlast : processLine os line s =
      executeCommand os (splitRuns [' '] ((splitRuns [';'] line).getLast hne))
        (processLoop os (splitRuns [';'] line).dropLast 1 s).1 := by
    rw [processLine_eq os line s hfit]
    conv_lhs => rw [← hsplit]
    exact processLoop_concat os hos _ (hargs _ hlastmem).1 _ 1 s hdrop
  refine ⟨?_, hlast, ?_⟩
  · rw [processLine_eq os line s hfit]
    exact processLoop_returns os hos _ 1 s hargs
  · intro hctl
    have h5 : (processLine os line s).2 = .ok 5 := by
      rw [hlast]
      cases hargs' : splitRuns [' '] ((splitRuns [';'] line).getLast hne) with
      | nil => rw [hargs'] at hctl; simp at hctl
      | cons file rest =>
        rw [hargs'] at hctl
        simp only [List.head?_cons, Option.some.injEq] at hctl
        rw [executeCommand_control os file rest _ hctl.symm]
    refine ⟨h5, ?_⟩
    intro raw later s0 hraw hs
    subst hs
    have hline : chomp raw ≠ [] := by
      rw [hraw]
      intro h0
      rw [h0, splitRuns_nil] at hne
      exact hne rfl
    subst hraw
    exact mainLoop_break os raw later s0 hline h5

/-- The run of the line `false; exit`: the value is 5 and the
interactive loop ends without reading the next line. -/
theorem processLine_last_status_witness :
    (processLine alwaysExits "false; exit".toList ⟨0, [.prompt]⟩).2 = .ok 5 ∧
    mainLoop alwaysExits ["false; exit\n".toList, "ls\n".toList] ⟨0, []⟩ =
      ((processLine alwaysExits "false; exit".toList ⟨0, [.prompt]⟩).1, .ok ()) :=
  ⟨((processLine_last_status alwaysExits "false; exit".toList ⟨0, [.prompt]⟩
      (by decide) (by decide) (by decide)
      (fun _ => Or.inr (by simp [alwaysExits, childStatuses, waitLoop, WIFEXITED]))).2.2
      (Or.inl (by decide))).1,
   ((processLine_last_status alwaysExits "false; exit".toList ⟨0, [.prompt]⟩
      (by decide) (by decide) (by decide)
      (fun _ => Or.inr (by simp [alwaysExits, childStatuses, waitLoop, WIFEXITED]))).2.2
      (Or.inl (by decide))).2 "false; exit\n".toList ["ls\n".toList] ⟨0, []⟩
      (by decide) (by decide)⟩

/-- Claim C8, the code at the line of 1024 statements `a;` followed by `exit`: the line has 1025
statements of one token each, the last being `exit`, yet `processLine` runs no statement and
does not return 5; its first `parseLine` stores outside the 1024-slot array, at index 1024. -/
theorem processLine_overflow_before_exit :
    splitRuns [';'] (manyStatements 1024 ++ exitName) = List.replicate 1024 ['a'] ++ [exitName] ∧
    splitRuns [' '] ['a'] = [['a']] ∧ splitRuns [' '] exitName = [exitName] ∧
    processLine alwaysExits (manyStatements 1024 ++ exitName) ⟨0, []⟩ =
      (⟨0, []⟩, .error (.oob 1024)) := by
  have hruns : splitRuns [';'] (manyStatements 1024 ++ exitName)
      = List.replicate 1024 ['a'] ++ [exitName] := by
    rw [splitRuns_manyStatements_append]
    rfl
  refine ⟨hruns, by decide, by decide, ?_⟩
  have h : parseLine (manyStatements 1024 ++ exitName) [';'] = .error (.oob 1024) := by
    rw [parseLine_eq, hruns, List.length_append, List.length_replicate, if_neg (by decide)]
    rfl
  simp [processLine, h]

end Child2
